import Mathlib

/-!
Shallow embedding of the slice-producer module (`src/slice.rs`) of a
parallel-iterator library: indexed producers over chunks and windows of a
slice, and the separator-delimited `SplitProducer` with its
midpoint forward/backward separator search and fused fold.

Slices are modelled as `List α`.  The separator closure `P : α → Bool` is
passed as an explicit parameter (in Rust it is a shared `&P` stored in the
producer).  Rust indexing panics are modelled by `Option` results.
-/

namespace RayonSlice

variable {α β : Type}

/-- Model of Rust `iter().position(p)`: index of the first element
satisfying `P`, if any. -/
def position (P : α → Bool) : List α → Option Nat
  | [] => none
  | a :: l => if P a then some 0 else (position P l).map fun i => i + 1

/-- Model of Rust `iter().rposition(p)`: index of the last element
satisfying `P`, if any. -/
def rposition (P : α → Bool) : List α → Option Nat
  | [] => none
  | a :: l =>
    match rposition P l with
    | some i => some (i + 1)
    | none => if P a then some 0 else none

/-- Number of predicate invocations performed by `position` (it scans from
the front and stops at the first hit). -/
def positionCost (P : α → Bool) : List α → Nat
  | [] => 0
  | a :: l => if P a then 1 else positionCost P l + 1

/-- Number of predicate invocations performed by `rposition` (it scans from
the back and stops at the first hit). -/
def rpositionCost (P : α → Bool) : List α → Nat
  | [] => 0
  | _ :: l =>
    match rposition P l with
    | some _ => rpositionCost P l
    | none => l.length + 1

/-- Model of Rust `slice.split(P)`: the maximal separator-free groups, with
separators consumed and discarded between groups.  An empty slice yields one
empty group; leading/trailing separators yield empty boundary groups. -/
def splitOnP (P : α → Bool) : List α → List (List α)
  | [] => [[]]
  | a :: l =>
    if P a then [] :: splitOnP P l
    else
      match splitOnP P l with
      | [] => [[a]]
      | g :: gs => (a :: g) :: gs

/-- Re-insert a single separator element between consecutive groups
(the round-trip operation of the separator split). -/
def joinSep (sep : α) : List (List α) → List α
  | [] => []
  | [g] => g
  | g :: gs => g ++ sep :: joinSep sep gs

/-- The separator-delimited producer: a slice view plus the tail marker.
`tail` marks the endpoint beyond which no separators remain
(`SplitProducer` in the source; the separator reference is passed
separately). -/
structure SplitProducer (α : Type) where
  slice : List α
  tail : Nat
deriving DecidableEq, Repr

/-- The public `Split` parallel iterator: just the slice (the separator
closure is a parameter in this model). -/
structure Split (α : Type) where
  slice : List α
deriving DecidableEq, Repr

/-- Construction performed by `Split::drive_unindexed`: a fresh producer with
`tail = slice.len()`. -/
def Split.toProducer (s : Split α) : SplitProducer α :=
  ⟨s.slice, s.slice.length⟩

/-- The cut-index search of `SplitProducer::split`: look forward for a
separator in `[mid, tail)` and, failing that, look backward in `[0, mid)`. -/
def chooseCut (P : α → Bool) (s : List α) (t : Nat) : Option Nat :=
  let mid := t / 2
  match position P ((s.drop mid).take (t - mid)) with
  | some i => some (mid + i)
  | none => rposition P (s.take mid)

/-- `SplitProducer::split`: if a cut index `k` is found, the left piece is
the view `[0, k)` with `tail = min(mid, k)` and the right piece is the view
`[k+1, len)` with `tail = tail - k - 1`, reset to `0` when the cut came from
the backward scan; otherwise the producer is returned alone with
`tail = 0`. -/
def SplitProducer.split (P : α → Bool) (sp : SplitProducer α) :
    SplitProducer α × Option (SplitProducer α) :=
  match chooseCut P sp.slice sp.tail with
  | some k =>
    (⟨sp.slice.take k, min (sp.tail / 2) k⟩,
     some ⟨sp.slice.drop (k + 1),
           if k < sp.tail / 2 then 0 else sp.tail - k - 1⟩)
  | none => (⟨sp.slice, 0⟩, none)

/-- Model of the engine's `Folder`: a piece of state, a consume operation
and a fullness test (`Folder` in the collaborating crate). -/
structure Folder (α β : Type) where
  st : β
  consume : β → α → β
  full : β → Bool

/-- Consume a single item. -/
def Folder.consumeItem (f : Folder α β) (x : α) : Folder α β :=
  ⟨f.consume f.st x, f.consume, f.full⟩

/-- Model of `Folder::consume_iter`: consume items in order, stopping early
when the folder reports itself full. -/
def Folder.consumeIter (f : Folder α β) : List α → Folder α β
  | [] => f
  | x :: xs =>
    let f2 := f.consumeItem x
    if f2.full f2.st then f2 else f2.consumeIter xs

/-- `SplitProducer::fold_with`: if `tail = len`, run the plain group split;
else if the last separator in `[0, tail)` is at `i`, run the plain split on
`[0, i)` and then consume the trailing subview `[i+1, len)` as one final
group; else consume the whole slice as a single group. -/
def SplitProducer.foldWith (P : α → Bool) (sp : SplitProducer α)
    (folder : Folder (List α) β) : Folder (List α) β :=
  if sp.tail = sp.slice.length then
    folder.consumeIter (splitOnP P sp.slice)
  else
    match rposition P (sp.slice.take sp.tail) with
    | some i =>
      let f2 := folder.consumeIter (splitOnP P (sp.slice.take i))
      if f2.full f2.st then f2 else f2.consumeItem (sp.slice.drop (i + 1))
    | none => folder.consumeItem sp.slice

/-- The data-model invariant of the separator producer: `tail ≤ len` and the
suffix `[tail, len)` contains no separator. -/
def Inv (P : α → Bool) (sp : SplitProducer α) : Prop :=
  sp.tail ≤ sp.slice.length ∧
    (sp.slice.drop sp.tail).all (fun a => !P a) = true

/-- Producers reachable from construction by any sequence of splits. -/
inductive Reachable (P : α → Bool) : SplitProducer α → Prop
  | fresh (s : Split α) : Reachable P s.toProducer
  | left {sp l r?} : Reachable P sp → sp.split P = (l, r?) → Reachable P l
  | right {sp l r} : Reachable P sp → sp.split P = (l, some r) →
      Reachable P r

/-- A schedule of split operations: at a `node` the producer is split and
the pieces handed to the subtrees; at a `leaf` it is folded. -/
inductive SplitTree : Type
  | leaf : SplitTree
  | node : SplitTree → SplitTree → SplitTree

/-- The never-full folder that records the sequence of consumed groups. -/
def collectFolder (α : Type) : Folder (List α) (List (List α)) :=
  ⟨[], fun gs g => gs ++ [g], fun _ => false⟩

/-- Run a split schedule: leaves are enumerated by `fold_with` (with the
group-collecting folder) and results concatenated in left-to-right tree
order. -/
def runTree (P : α → Bool) : SplitTree → SplitProducer α → List (List α)
  | .leaf, sp => (sp.foldWith P (collectFolder α)).st
  | .node tl tr, sp =>
    match sp.split P with
    | (l, some r) => runTree P tl l ++ runTree P tr r
    | (l, none) => runTree P tl l

/-- Number of predicate invocations performed by one `split` call. -/
def splitCost (P : α → Bool) (sp : SplitProducer α) : Nat :=
  let mid := sp.tail / 2
  let fwd := (sp.slice.drop mid).take (sp.tail - mid)
  match position P fwd with
  | some _ => positionCost P fwd
  | none => positionCost P fwd + rpositionCost P (sp.slice.take mid)

/-- Total predicate invocations performed by the split operations of a whole
split schedule. -/
def treeCost (P : α → Bool) : SplitTree → SplitProducer α → Nat
  | .leaf, _ => 0
  | .node tl tr, sp =>
    match sp.split P with
    | (l, some r) => splitCost P sp + treeCost P tl l + treeCost P tr r
    | (l, none) => splitCost P sp + treeCost P tl l

/-- The `Windows` parallel iterator over a slice. -/
structure Windows (α : Type) where
  window_size : Nat
  slice : List α
deriving DecidableEq, Repr

/-- `Windows::len`: `len.saturating_sub(window_size - 1)`. -/
def Windows.len (w : Windows α) : Nat :=
  w.slice.length - (w.window_size - 1)

/-- The windows producer (`WindowsProducer` in the source). -/
structure WindowsProducer (α : Type) where
  window_size : Nat
  slice : List α
deriving DecidableEq, Repr

/-- Model of `slice.windows(w)` bulk iteration: all contiguous windows of
length `w`, in order. -/
def windowsList (w : Nat) (l : List α) : List (List α) :=
  (List.range (l.length + 1 - w)).map fun i => (l.drop i).take w

/-- `WindowsProducer::split_at`: the left view runs to
`min(len, index + window_size - 1)`, the right view starts at `index`.
Rust panics when `index > len`, modelled by `none`. -/
def WindowsProducer.split_at (wp : WindowsProducer α) (index : Nat) :
    Option (WindowsProducer α × WindowsProducer α) :=
  let left_index := min wp.slice.length (index + (wp.window_size - 1))
  if index ≤ wp.slice.length then
    some (⟨wp.window_size, wp.slice.take left_index⟩,
          ⟨wp.window_size, wp.slice.drop index⟩)
  else none

/-- The `Chunks` parallel iterator over a slice. -/
structure Chunks (α : Type) where
  chunk_size : Nat
  slice : List α
deriving DecidableEq, Repr

/-- `Chunks::len`: `(len + (chunk_size - 1)) / chunk_size`. -/
def Chunks.len (c : Chunks α) : Nat :=
  (c.slice.length + (c.chunk_size - 1)) / c.chunk_size

/-- The immutable chunks producer (`ChunksProducer` in the source). -/
structure ChunksProducer (α : Type) where
  chunk_size : Nat
  slice : List α
deriving DecidableEq, Repr

/-- The mutable chunks producer (`ChunksMutProducer` in the source); in this
model it carries the same data as the immutable one. -/
structure ChunksMutProducer (α : Type) where
  chunk_size : Nat
  slice : List α
deriving DecidableEq, Repr

/-- Model of `slice.chunks(c)` bulk iteration: the `i`-th chunk is the
subview of (at most) `c` elements starting at element `i * c`, for
`i < ceil(len / c)`; chunks do not overlap and the last may be shorter.
(Rust panics on `c = 0`; every claim assumes `c ≥ 1`.) -/
def chunksList (c : Nat) (l : List α) : List (List α) :=
  (List.range ((l.length + (c - 1)) / c)).map fun i => (l.drop (i * c)).take c

/-- `ChunksProducer::split_at`: split the slice at element index
`index * chunk_size`.  Rust panics when that exceeds the slice length,
modelled by `none`. -/
def ChunksProducer.split_at (cp : ChunksProducer α) (index : Nat) :
    Option (ChunksProducer α × ChunksProducer α) :=
  let elem_index := index * cp.chunk_size
  if elem_index ≤ cp.slice.length then
    some (⟨cp.chunk_size, cp.slice.take elem_index⟩,
          ⟨cp.chunk_size, cp.slice.drop elem_index⟩)
  else none

/-- `ChunksMutProducer::split_at`: identical arithmetic to the immutable
variant (`split_at_mut` in Rust). -/
def ChunksMutProducer.split_at (cp : ChunksMutProducer α) (index : Nat) :
    Option (ChunksMutProducer α × ChunksMutProducer α) :=
  let elem_index := index * cp.chunk_size
  if elem_index ≤ cp.slice.length then
    some (⟨cp.chunk_size, cp.slice.take elem_index⟩,
          ⟨cp.chunk_size, cp.slice.drop elem_index⟩)
  else none

/-- There is no separator strictly inside positions `[lo, hi)` of `s`. -/
def NoSepIn (P : α → Bool) (s : List α) (lo hi : Nat) : Prop :=
  ∀ j, lo ≤ j → j < hi → ∀ a, s[j]? = some a → P a = false

/-- `k` is the first separator position in `[lo, hi)` of `s`. -/
def IsFirstSepIn (P : α → Bool) (s : List α) (lo hi k : Nat) : Prop :=
  lo ≤ k ∧ k < hi ∧ (∃ a, s[k]? = some a ∧ P a = true) ∧ NoSepIn P s lo k

/-- `k` is the last separator position in `[lo, hi)` of `s`. -/
def IsLastSepIn (P : α → Bool) (s : List α) (lo hi k : Nat) : Prop :=
  lo ≤ k ∧ k < hi ∧ (∃ a, s[k]? = some a ∧ P a = true) ∧
    NoSepIn P s (k + 1) hi

/-- The cut-choice contract of `SplitProducer::split` when a separator
exists in `[0, t)`: the cut `k` is the first separator in `[mid, t)` or,
failing that, the last one in `[0, mid)`; the left child is the view
`[0, k)` with `tail = min(mid, k)`; the separator at `k` goes to neither
child; the right child has `tail = t - k - 1`, reset to `0` on a backward
find. -/
def SplitCutSpec (P : α → Bool) (s : List α) (t : Nat) : Prop :=
  ∃ k a, s[k]? = some a ∧ P a = true ∧
    (IsFirstSepIn P s (t / 2) t k ∨
      (NoSepIn P s (t / 2) t ∧ IsLastSepIn P s 0 (t / 2) k)) ∧
    SplitProducer.split P ⟨s, t⟩ =
      (⟨s.take k, min (t / 2) k⟩,
       some ⟨s.drop (k + 1), if k < t / 2 then 0 else t - k - 1⟩) ∧
    s.take k ++ a :: s.drop (k + 1) = s

/-- The actual extent of the right child produced by a successful split:
the view `[k+1, len)` (to the end of the parent slice, not to the parent's
tail marker), with tail `t - k - 1` unless found backward, then `0`. -/
def RightChildSpec (P : α → Bool) (sp : SplitProducer α) : Prop :=
  ∀ lp r, sp.split P = (lp, some r) →
    ∃ k, chooseCut P sp.slice sp.tail = some k ∧
      r.slice = sp.slice.drop (k + 1) ∧
      (∀ j a, r.slice[j]? = some a → sp.slice[k + 1 + j]? = some a) ∧
      r.tail = if k < sp.tail / 2 then 0 else sp.tail - k - 1

/-- The window-split contract of `WindowsProducer::split_at` at window
index `i`: left view `[0, min(n, i + w - 1))`, right view `[i, n)`,
overlap at most `w - 1`, left windows `= take i`, right windows
`= drop i`, concatenation restores the window sequence, every window has
`w` elements. -/
def WindowsSplitSpec (w : Nat) (s : List α) (i : Nat) : Prop :=
  ∃ lp rp, WindowsProducer.split_at ⟨w, s⟩ i = some (lp, rp) ∧
    lp.window_size = w ∧ rp.window_size = w ∧
    lp.slice = s.take (min s.length (i + (w - 1))) ∧
    rp.slice = s.drop i ∧
    lp.slice.length ≤ i + (w - 1) ∧
    windowsList w lp.slice = (windowsList w s).take i ∧
    (windowsList w lp.slice).length = i ∧
    windowsList w rp.slice = (windowsList w s).drop i ∧
    windowsList w lp.slice ++ windowsList w rp.slice = windowsList w s ∧
    (windowsList w s).length = Windows.len ⟨w, s⟩ ∧
    ∀ g ∈ windowsList w s, g.length = w

/-- The chunk-split contract of `ChunksProducer::split_at` (and its
mutable twin) at chunk index `i`: the slice splits at element `i * c`,
the left chunks are the first `i` chunks, all full, the right chunks are
the remaining ones, all full except possibly the last, and the element
ranges are disjoint with concatenation the original slice. -/
def ChunksSplitSpec (c : Nat) (s : List α) (i : Nat) : Prop :=
  ∃ lp rp, ChunksProducer.split_at ⟨c, s⟩ i = some (lp, rp) ∧
    lp.chunk_size = c ∧ rp.chunk_size = c ∧
    lp.slice = s.take (i * c) ∧ rp.slice = s.drop (i * c) ∧
    lp.slice ++ rp.slice = s ∧
    chunksList c lp.slice = (chunksList c s).take i ∧
    chunksList c rp.slice = (chunksList c s).drop i ∧
    (chunksList c lp.slice).length = i ∧
    (chunksList c rp.slice).length = Chunks.len ⟨c, s⟩ - i ∧
    (∀ g ∈ chunksList c lp.slice, g.length = c) ∧
    (∀ g ∈ (chunksList c rp.slice).dropLast, g.length = c) ∧
    ∃ lp2 rp2, ChunksMutProducer.split_at ⟨c, s⟩ i = some (lp2, rp2) ∧
      lp2.slice = lp.slice ∧ rp2.slice = rp.slice

theorem position_eq_none_iff {P : α → Bool} {l : List α} :
    position P l = none ↔ ∀ a ∈ l, P a = false := by
  induction l with
  | nil => simp [position]
  | cons a l ih =>
    by_cases h : P a <;> simp [position, h, ih]

theorem position_eq_some {P : α → Bool} {l : List α} {i : Nat}
    (h : position P l = some i) :
    (∃ a, l[i]? = some a ∧ P a = true) ∧
      ∀ j, j < i → ∀ a, l[j]? = some a → P a = false := by
  induction l generalizing i with
  | nil => simp [position] at h
  | cons b l ih =>
    cases hb : P b with
    | true =>
      simp [position, hb] at h
      subst h
      exact ⟨⟨b, by simp, hb⟩, fun j hj => by omega⟩
    | false =>
      simp [position, hb, Option.map_eq_some'] at h
      obtain ⟨i', hi', rfl⟩ := h
      obtain ⟨⟨a, ha, hPa⟩, hlt⟩ := ih hi'
      refine ⟨⟨a, by simpa using ha, hPa⟩, ?_⟩
      intro j hj c hc
      cases j with
      | zero =>
        simp only [List.getElem?_cons_zero, Option.some.injEq] at hc
        subst hc
        exact hb
      | succ j => exact hlt j (by omega) c (by simpa using hc)

theorem rposition_eq_none_iff {P : α → Bool} {l : List α} :
    rposition P l = none ↔ ∀ a ∈ l, P a = false := by
  induction l with
  | nil => simp [rposition]
  | cons a l ih =>
    simp only [rposition]
    cases hr : rposition P l with
    | some i =>
      rw [hr] at ih
      constructor
      · intro hcontra
        exact absurd hcontra (by simp)
      · intro hall
        have : ∀ b ∈ l, P b = false := fun b hb => hall b (by simp [hb])
        exact absurd (ih.mpr this) (by simp)
    | none =>
      rw [hr] at ih
      cases h : P a with
      | true =>
        constructor
        · intro hcontra
          simp [h] at hcontra
        · intro hall
          exact absurd (hall a (by simp)) (by simp [h])
      | false =>
        constructor
        · intro _ b hb
          rcases List.mem_cons.mp hb with rfl | hbl
          · exact h
          · exact ih.mp rfl b hbl
        · intro _
          simp [h]

theorem rposition_eq_some {P : α → Bool} {l : List α} {k : Nat}
    (h : rposition P l = some k) :
    (∃ a, l[k]? = some a ∧ P a = true) ∧
      ∀ j, k < j → ∀ a, l[j]? = some a → P a = false := by
  induction l generalizing k with
  | nil => simp [rposition] at h
  | cons b l ih =>
    simp only [rposition] at h
    cases hr : rposition P l with
    | some i =>
      rw [hr] at h
      simp only [Option.some.injEq] at h
      subst h
      obtain ⟨⟨a, ha, hPa⟩, hgt⟩ := ih hr
      refine ⟨⟨a, by simpa using ha, hPa⟩, ?_⟩
      intro j hj c hc
      cases j with
      | zero => omega
      | succ j => exact hgt j (by omega) c (by simpa using hc)
    | none =>
      rw [hr] at h
      cases hb : P b with
      | true =>
        simp [hb] at h
        subst h
        refine ⟨⟨b, by simp, hb⟩, ?_⟩
        intro j hj c hc
        cases j with
        | zero => omega
        | succ j =>
          have hall := rposition_eq_none_iff.mp hr
          have hcmem : c ∈ l := List.mem_iff_getElem?.mpr ⟨j, by simpa using hc⟩
          exact hall c hcmem
      | false => simp [hb] at h

theorem positionCost_of_some {P : α → Bool} {l : List α} {i : Nat}
    (h : position P l = some i) : positionCost P l = i + 1 := by
  induction l generalizing i with
  | nil => simp [position] at h
  | cons b l ih =>
    cases hb : P b with
    | true =>
      simp [position, hb] at h
      simp [positionCost, hb, ← h]
    | false =>
      simp [position, hb, Option.map_eq_some'] at h
      obtain ⟨i', hi', rfl⟩ := h
      simp [positionCost, hb, ih hi']

theorem positionCost_of_none {P : α → Bool} {l : List α}
    (h : position P l = none) : positionCost P l = l.length := by
  induction l with
  | nil => simp [positionCost]
  | cons b l ih =>
    cases hb : P b with
    | true => simp [position, hb] at h
    | false =>
      simp [position, hb, Option.map_eq_none'] at h
      simp [positionCost, hb, ih h]

theorem rpositionCost_of_some {P : α → Bool} {l : List α} {k : Nat}
    (h : rposition P l = some k) : rpositionCost P l = l.length - k := by
  induction l generalizing k with
  | nil => simp [rposition] at h
  | cons b l ih =>
    simp only [rposition] at h
    cases hr : rposition P l with
    | some i =>
      rw [hr] at h
      simp only [Option.some.injEq] at h
      subst h
      have hi := (rposition_eq_some hr).1
      obtain ⟨a, ha, _⟩ := hi
      have : i < l.length := by
        by_contra hge
        rw [List.getElem?_eq_none (by omega)] at ha
        exact Option.noConfusion ha
      simp only [rpositionCost, hr, List.length_cons]
      rw [ih hr]
      omega
    | none =>
      rw [hr] at h
      cases hb : P b with
      | true =>
        simp [hb] at h
        subst h
        simp [rpositionCost, hr]
      | false => simp [hb] at h

theorem rpositionCost_of_none {P : α → Bool} {l : List α}
    (h : rposition P l = none) : rpositionCost P l = l.length := by
  cases l with
  | nil => simp [rpositionCost]
  | cons b l =>
    simp only [rposition] at h
    cases hr : rposition P l with
    | some i => simp [hr] at h
    | none => simp [rpositionCost, hr]

theorem splitOnP_ne_nil (P : α → Bool) (l : List α) : splitOnP P l ≠ [] := by
  induction l with
  | nil => simp [splitOnP]
  | cons a l _ =>
    simp only [splitOnP]
    by_cases h : P a
    · simp [h]
    · simp only [h, if_false]
      cases hs : splitOnP P l <;> simp

theorem splitOnP_all_false {P : α → Bool} {l : List α}
    (h : ∀ a ∈ l, P a = false) : splitOnP P l = [l] := by
  induction l with
  | nil => simp [splitOnP]
  | cons a l ih =>
    have ha := h a (by simp)
    have hl : ∀ b ∈ l, P b = false := fun b hb => h b (by simp [hb])
    simp [splitOnP, ha, ih hl]

theorem splitOnP_append_sep {P : α → Bool} {x : α} (hx : P x = true)
    (u v : List α) :
    splitOnP P (u ++ x :: v) = splitOnP P u ++ splitOnP P v := by
  induction u with
  | nil => simp [splitOnP, hx]
  | cons b u ih =>
    cases hb : P b with
    | true => simp [splitOnP, hb, ih]
    | false =>
      cases hs : splitOnP P u with
      | nil => exact absurd hs (splitOnP_ne_nil P u)
      | cons g gs => simp [splitOnP, hb, ih, hs]

theorem joinSep_splitOnP {P : α → Bool} {sep : α} {l : List α}
    (h : ∀ a ∈ l, P a = true → a = sep) :
    joinSep sep (splitOnP P l) = l := by
  induction l with
  | nil => simp [splitOnP, joinSep]
  | cons a l ih =>
    have hl : ∀ b ∈ l, P b = true → b = sep := fun b hb => h b (by simp [hb])
    by_cases ha : P a
    · have has : a = sep := h a (by simp) ha
      subst has
      simp only [splitOnP, ha, if_true]
      cases hs : splitOnP P l with
      | nil => exact absurd hs (splitOnP_ne_nil P l)
      | cons g gs =>
        rw [hs] at ih
        simp [joinSep, ih hl]
    · simp only [splitOnP, ha, if_false]
      cases hs : splitOnP P l with
      | nil => exact absurd hs (splitOnP_ne_nil P l)
      | cons g gs =>
        rw [hs] at ih
        cases gs with
        | nil =>
          simp only [joinSep]
          simp only [joinSep] at ih
          rw [ih hl]
        | cons g2 gs2 =>
          simp only [joinSep, List.cons_append]
          simp only [joinSep] at ih
          rw [← ih hl]

theorem seg_getElem? (s : List α) (mid t j : Nat) :
    ((s.drop mid).take (t - mid))[j]? =
      if j < t - mid then s[mid + j]? else none := by
  rw [List.getElem?_take]
  by_cases hj : j < t - mid
  · simp [hj, List.getElem?_drop]
  · simp [hj]

theorem noSepIn_mono {P : α → Bool} {s : List α} {lo hi lo' hi' : Nat}
    (h : NoSepIn P s lo hi) (hlo : lo ≤ lo') (hhi : hi' ≤ hi) :
    NoSepIn P s lo' hi' :=
  fun j h1 h2 a ha => h j (by omega) (by omega) a ha

theorem noSepIn_union {P : α → Bool} {s : List α} {lo m hi : Nat}
    (h1 : NoSepIn P s lo m) (h2 : NoSepIn P s m hi) :
    NoSepIn P s lo hi := by
  intro j hj1 hj2 a ha
  by_cases hm : j < m
  · exact h1 j hj1 hm a ha
  · exact h2 j (by omega) hj2 a ha

theorem noSepIn_beyond {P : α → Bool} {s : List α} {lo hi : Nat}
    (hlo : s.length ≤ lo) : NoSepIn P s lo hi := by
  intro j hj1 _ a ha
  rw [List.getElem?_eq_none (by omega)] at ha
  exact Option.noConfusion ha

theorem noSepIn_extend {P : α → Bool} {s : List α} {lo hi : Nat}
    (h : NoSepIn P s lo s.length) : NoSepIn P s lo hi := by
  intro j hj1 _ a ha
  have hj : j < s.length := by
    by_contra hge
    rw [List.getElem?_eq_none (by omega)] at ha
    exact Option.noConfusion ha
  exact h j hj1 hj a ha

theorem noSepIn_take {P : α → Bool} {s : List α} {lo hi : Nat} (m : Nat)
    (h : NoSepIn P s lo hi) : NoSepIn P (s.take m) lo hi := by
  intro j hj1 hj2 a ha
  rw [List.getElem?_take] at ha
  by_cases hm : j < m
  · rw [if_pos hm] at ha
    exact h j hj1 hj2 a ha
  · rw [if_neg hm] at ha
    exact Option.noConfusion ha

theorem noSepIn_drop {P : α → Bool} {s : List α} {lo hi : Nat} (m : Nat)
    (h : NoSepIn P s (m + lo) (m + hi)) : NoSepIn P (s.drop m) lo hi := by
  intro j hj1 hj2 a ha
  rw [List.getElem?_drop] at ha
  exact h (m + j) (by omega) (by omega) a ha

theorem Inv_iff {P : α → Bool} {sp : SplitProducer α} :
    Inv P sp ↔ sp.tail ≤ sp.slice.length ∧
      NoSepIn P sp.slice sp.tail sp.slice.length := by
  unfold Inv
  refine and_congr_right fun _ => ?_
  rw [List.all_eq_true]
  constructor
  · intro h j hj1 hj2 a ha
    have hmem : a ∈ sp.slice.drop sp.tail := by
      refine List.mem_iff_getElem?.mpr ⟨j - sp.tail, ?_⟩
      rw [List.getElem?_drop]
      rwa [Nat.add_sub_cancel' hj1]
    simpa using h a hmem
  · intro h a hmem
    obtain ⟨j, hj⟩ := List.mem_iff_getElem?.mp hmem
    rw [List.getElem?_drop] at hj
    have hlt : sp.tail + j < sp.slice.length := by
      by_contra hge
      rw [List.getElem?_eq_none (by omega)] at hj
      exact Option.noConfusion hj
    simpa using h (sp.tail + j) (by omega) hlt a hj

theorem chooseCut_spec_some {P : α → Bool} {s : List α} {t k : Nat}
    (h : chooseCut P s t = some k) :
    k < t ∧ k < s.length ∧ (∃ a, s[k]? = some a ∧ P a = true) ∧
      (IsFirstSepIn P s (t / 2) t k ∨
        (NoSepIn P s (t / 2) t ∧ IsLastSepIn P s 0 (t / 2) k)) := by
  unfold chooseCut at h
  simp only at h
  cases hf : position P ((s.drop (t / 2)).take (t - t / 2)) with
  | some i =>
    rw [hf] at h
    simp only [Option.some.injEq] at h
    subst h
    obtain ⟨⟨a, ha, hPa⟩, hbefore⟩ := position_eq_some hf
    rw [seg_getElem?] at ha
    have hi : i < t - t / 2 := by
      by_contra hge
      rw [if_neg hge] at ha
      exact Option.noConfusion ha
    rw [if_pos hi] at ha
    have hklen : t / 2 + i < s.length := by
      by_contra hge
      rw [List.getElem?_eq_none (by omega)] at ha
      exact Option.noConfusion ha
    have hmid : t / 2 ≤ t := Nat.div_le_self t 2
    refine ⟨by omega, hklen, ⟨a, ha, hPa⟩, Or.inl ⟨by omega, by omega, ⟨a, ha, hPa⟩, ?_⟩⟩
    intro j hj1 hj2 b hb
    refine hbefore (j - t / 2) (by omega) b ?_
    rw [seg_getElem?, if_pos (by omega), Nat.add_sub_cancel' hj1]
    exact hb
  | none =>
    rw [hf] at h
    have hfall := position_eq_none_iff.mp hf
    have hfwd : NoSepIn P s (t / 2) t := by
      intro j hj1 hj2 a ha
      have hjlen : j < s.length := by
        by_contra hge
        rw [List.getElem?_eq_none (by omega)] at ha
        exact Option.noConfusion ha
      refine hfall a (List.mem_iff_getElem?.mpr ⟨j - t / 2, ?_⟩)
      rw [seg_getElem?, if_pos (by omega), Nat.add_sub_cancel' hj1]
      exact ha
    obtain ⟨⟨a, ha, hPa⟩, hafter⟩ := rposition_eq_some h
    rw [List.getElem?_take] at ha
    have hk : k < t / 2 := by
      by_contra hge
      rw [if_neg hge] at ha
      exact Option.noConfusion ha
    rw [if_pos hk] at ha
    have hklen : k < s.length := by
      by_contra hge
      rw [List.getElem?_eq_none (by omega)] at ha
      exact Option.noConfusion ha
    have hmid : t / 2 ≤ t := Nat.div_le_self t 2
    refine ⟨by omega, hklen, ⟨a, ha, hPa⟩,
      Or.inr ⟨hfwd, Nat.zero_le k, hk, ⟨a, ha, hPa⟩, ?_⟩⟩
    intro j hj1 hj2 b hb
    refine hafter j (by omega) b ?_
    rw [List.getElem?_take, if_pos hj2]
    exact hb

theorem chooseCut_eq_none_iff {P : α → Bool} {s : List α} {t : Nat} :
    chooseCut P s t = none ↔ NoSepIn P s 0 t := by
  unfold chooseCut
  simp only
  constructor
  · intro h
    cases hf : position P ((s.drop (t / 2)).take (t - t / 2)) with
    | some i => rw [hf] at h; exact Option.noConfusion h
    | none =>
      rw [hf] at h
      have hfall := position_eq_none_iff.mp hf
      have hrall := rposition_eq_none_iff.mp h
      intro j hj1 hj2 a ha
      have hjlen : j < s.length := by
        by_contra hge
        rw [List.getElem?_eq_none (by omega)] at ha
        exact Option.noConfusion ha
      by_cases hm : j < t / 2
      · refine hrall a (List.mem_iff_getElem?.mpr ⟨j, ?_⟩)
        rw [List.getElem?_take, if_pos hm]
        exact ha
      · refine hfall a (List.mem_iff_getElem?.mpr ⟨j - t / 2, ?_⟩)
        rw [seg_getElem?, if_pos (by omega), Nat.add_sub_cancel' (by omega)]
        exact ha
  · intro h
    have hmid : t / 2 ≤ t := Nat.div_le_self t 2
    have hf : position P ((s.drop (t / 2)).take (t - t / 2)) = none := by
      refine position_eq_none_iff.mpr fun a hmem => ?_
      obtain ⟨j, hj⟩ := List.mem_iff_getElem?.mp hmem
      rw [seg_getElem?] at hj
      by_cases hjt : j < t - t / 2
      · rw [if_pos hjt] at hj
        exact h (t / 2 + j) (by omega) (by omega) a hj
      · rw [if_neg hjt] at hj
        exact Option.noConfusion hj
    rw [hf]
    refine rposition_eq_none_iff.mpr fun a hmem => ?_
    obtain ⟨j, hj⟩ := List.mem_iff_getElem?.mp hmem
    rw [List.getElem?_take] at hj
    by_cases hjm : j < t / 2
    · rw [if_pos hjm] at hj
      exact h j (by omega) (by omega) a hj
    · rw [if_neg hjm] at hj
      exact Option.noConfusion hj

theorem split_of_chooseCut_some {P : α → Bool} {sp : SplitProducer α}
    {k : Nat} (h : chooseCut P sp.slice sp.tail = some k) :
    sp.split P =
      (⟨sp.slice.take k, min (sp.tail / 2) k⟩,
       some ⟨sp.slice.drop (k + 1),
             if k < sp.tail / 2 then 0 else sp.tail - k - 1⟩) := by
  unfold SplitProducer.split
  rw [h]

theorem split_of_chooseCut_none {P : α → Bool} {sp : SplitProducer α}
    (h : chooseCut P sp.slice sp.tail = none) :
    sp.split P = (⟨sp.slice, 0⟩, none) := by
  unfold SplitProducer.split
  rw [h]

theorem split_cases {P : α → Bool} {sp lp : SplitProducer α}
    {r? : Option (SplitProducer α)} (h : sp.split P = (lp, r?)) :
    (∃ k, chooseCut P sp.slice sp.tail = some k ∧
        lp = ⟨sp.slice.take k, min (sp.tail / 2) k⟩ ∧
        r? = some ⟨sp.slice.drop (k + 1),
                   if k < sp.tail / 2 then 0 else sp.tail - k - 1⟩) ∨
      (chooseCut P sp.slice sp.tail = none ∧
        lp = ⟨sp.slice, 0⟩ ∧ r? = none) := by
  cases hc : chooseCut P sp.slice sp.tail with
  | some k =>
    rw [split_of_chooseCut_some hc] at h
    obtain ⟨h1, h2⟩ := Prod.mk.injEq .. ▸ h
    exact Or.inl ⟨k, rfl, h1.symm, h2.symm⟩
  | none =>
    rw [split_of_chooseCut_none hc] at h
    obtain ⟨h1, h2⟩ := Prod.mk.injEq .. ▸ h
    exact Or.inr ⟨rfl, h1.symm, h2.symm⟩

theorem split_preserves_inv {P : α → Bool} {sp lp : SplitProducer α}
    {r? : Option (SplitProducer α)} (hInv : Inv P sp)
    (h : sp.split P = (lp, r?)) :
    (Inv P lp ∧ lp.tail ≤ sp.tail) ∧
      ∀ r, r? = some r → Inv P r ∧ r.tail ≤ sp.tail := by
  obtain ⟨hlen, hsuf⟩ := Inv_iff.mp hInv
  have hmid : sp.tail / 2 ≤ sp.tail := Nat.div_le_self _ 2
  rcases split_cases h with ⟨k, hc, hl, hr⟩ | ⟨hc, hl, hr⟩
  · obtain ⟨hkt, hklen, ⟨a, ha, hPa⟩, hdisj⟩ := chooseCut_spec_some hc
    have hlenl : (sp.slice.take k).length = k := by
      rw [List.length_take]
      omega
    have hlenr : (sp.slice.drop (k + 1)).length = sp.slice.length - k - 1 :=
      by rw [List.length_drop]; omega
    constructor
    · subst hl
      rcases hdisj with hfst | ⟨hfwd, hlst⟩
      · obtain ⟨hmk, _, _, hnone⟩ := hfst
        have hmkeq : min (sp.tail / 2) k = sp.tail / 2 := by omega
        refine ⟨Inv_iff.mpr ⟨?_, ?_⟩, ?_⟩
        · simp only [hmkeq, hlenl]
          exact hmk
        · simp only [hmkeq, hlenl]
          exact noSepIn_take k hnone
        · simp only [hmkeq]
          exact hmid
      · obtain ⟨_, hkm, _, _⟩ := hlst
        have hmkeq : min (sp.tail / 2) k = k := by omega
        refine ⟨Inv_iff.mpr ⟨?_, ?_⟩, ?_⟩
        · simp [hmkeq, hlenl]
        · simp only [hmkeq]
          exact noSepIn_beyond (by omega)
        · simp only [hmkeq]
          omega
    · intro r hrr
      rw [hr] at hrr
      obtain rfl := (Option.some.injEq .. ▸ hrr).symm
      rcases hdisj with hfst | ⟨hfwd, hlst⟩
      · obtain ⟨hmk, _, _, _⟩ := hfst
        have hnlt : ¬k < sp.tail / 2 := by omega
        refine ⟨Inv_iff.mpr ⟨?_, ?_⟩, ?_⟩
        · simp only [hnlt, if_false, hlenr]
          omega
        · simp only [hnlt, if_false]
          refine noSepIn_drop (k + 1) ?_
          have h1 : k + 1 + (sp.tail - k - 1) = sp.tail := by omega
          rw [h1]
          exact noSepIn_extend hsuf
        · simp only [hnlt, if_false]
          omega
      · obtain ⟨_, hkm, _, hafter⟩ := hlst
        have hlt : k < sp.tail / 2 := hkm
        refine ⟨Inv_iff.mpr ⟨?_, ?_⟩, ?_⟩
        · simp [hlt]
        · simp only [hlt, if_true]
          refine noSepIn_drop (k + 1) ?_
          simp only [Nat.add_zero]
          refine noSepIn_union (m := sp.tail / 2) hafter ?_
          refine noSepIn_union (m := sp.tail) hfwd ?_
          exact noSepIn_extend hsuf
        · simp [hlt]
  · subst hl
    have hall : NoSepIn P sp.slice 0 sp.slice.length :=
      noSepIn_union (m := sp.tail)
        (noSepIn_mono (chooseCut_eq_none_iff.mp hc) (by omega) (le_refl _))
        hsuf
    refine ⟨⟨Inv_iff.mpr ⟨Nat.zero_le _, hall⟩, Nat.zero_le _⟩, ?_⟩
    intro r hrr
    rw [hr] at hrr
    exact Option.noConfusion hrr

theorem reachable_inv {P : α → Bool} {sp : SplitProducer α}
    (h : Reachable P sp) : Inv P sp := by
  induction h with
  | fresh s =>
    refine Inv_iff.mpr ⟨le_refl _, ?_⟩
    exact noSepIn_beyond (le_refl _)
  | left hr hsplit ih => exact ((split_preserves_inv ih hsplit).1).1
  | right hr hsplit ih =>
    exact ((split_preserves_inv ih hsplit).2 _ rfl).1

theorem take_getElem_drop {s : List α} {i : Nat} {a : α} (h : s[i]? = some a) :
    s.take i ++ a :: s.drop (i + 1) = s := by
  obtain ⟨hlt, ha⟩ := List.getElem?_eq_some.mp h
  subst ha
  conv_rhs => rw [← List.take_append_drop i s]
  rw [List.drop_eq_getElem_cons hlt]

theorem splitOnP_last_sep {P : α → Bool} {s : List α} {i : Nat} {a : α}
    (ha : s[i]? = some a) (hPa : P a = true)
    (hclean : ∀ b ∈ s.drop (i + 1), P b = false) :
    splitOnP P s = splitOnP P (s.take i) ++ [s.drop (i + 1)] := by
  conv_lhs => rw [← take_getElem_drop ha]
  rw [splitOnP_append_sep hPa, splitOnP_all_false hclean]

theorem consumeIter_never_full {β : Type} (f : Folder α β)
    (hf : ∀ b, f.full b = false) (xs : List α) :
    f.consumeIter xs = ⟨xs.foldl f.consume f.st, f.consume, f.full⟩ := by
  induction xs generalizing f with
  | nil => simp [Folder.consumeIter]
  | cons x xs ih =>
    have h2 := ih ⟨f.consume f.st x, f.consume, f.full⟩ hf
    simp only [Folder.consumeIter, Folder.consumeItem, hf, List.foldl_cons,
      Bool.false_eq_true, if_false] at h2 ⊢
    exact h2

theorem foldWith_never_full {β : Type} {P : α → Bool} {sp : SplitProducer α}
    (hInv : Inv P sp) (f : Folder (List α) β)
    (hf : ∀ b, f.full b = false) :
    sp.foldWith P f =
      ⟨(splitOnP P sp.slice).foldl f.consume f.st, f.consume, f.full⟩ := by
  unfold SplitProducer.foldWith
  by_cases ht : sp.tail = sp.slice.length
  · rw [if_pos ht]
    exact consumeIter_never_full f hf _
  · rw [if_neg ht]
    obtain ⟨hlen, hsuf⟩ := Inv_iff.mp hInv
    split
    next i hr =>
      obtain ⟨⟨a, ha, hPa⟩, hafter⟩ := rposition_eq_some hr
      rw [List.getElem?_take] at ha
      have hi : i < sp.tail := by
        by_contra hge
        rw [if_neg hge] at ha
        exact Option.noConfusion ha
      rw [if_pos hi] at ha
      have hclean : ∀ b ∈ sp.slice.drop (i + 1), P b = false := by
        intro b hb
        obtain ⟨j, hj⟩ := List.mem_iff_getElem?.mp hb
        rw [List.getElem?_drop] at hj
        have hjlen : i + 1 + j < sp.slice.length := by
          by_contra hge
          rw [List.getElem?_eq_none (by omega)] at hj
          exact Option.noConfusion hj
        by_cases hjt : i + 1 + j < sp.tail
        · refine hafter (i + 1 + j) (by omega) b ?_
          rw [List.getElem?_take, if_pos hjt]
          exact hj
        · exact hsuf (i + 1 + j) (by omega) hjlen b hj
      have hsplit := splitOnP_last_sep ha hPa hclean
      simp only [consumeIter_never_full f hf, hf, Bool.false_eq_true,
        if_false, Folder.consumeItem]
      rw [hsplit, List.foldl_append]
      rfl
    next hr =>
      have hall : ∀ b ∈ sp.slice, P b = false := by
        intro b hb
        obtain ⟨j, hj⟩ := List.mem_iff_getElem?.mp hb
        have hjlen : j < sp.slice.length := by
          by_contra hge
          rw [List.getElem?_eq_none (by omega)] at hj
          exact Option.noConfusion hj
        by_cases hjt : j < sp.tail
        · refine rposition_eq_none_iff.mp hr b
            (List.mem_iff_getElem?.mpr ⟨j, ?_⟩)
          rw [List.getElem?_take, if_pos hjt]
          exact hj
        · exact hsuf j (by omega) hjlen b hj
      rw [splitOnP_all_false hall]
      rfl

theorem foldl_snoc {β : Type} (gs : List β) (acc : List β) :
    gs.foldl (fun r g => r ++ [g]) acc = acc ++ gs := by
  induction gs generalizing acc with
  | nil => simp
  | cons g gs ih => simp [List.foldl_cons, ih]

theorem splitOnP_split_pieces {P : α → Bool} {sp lp r : SplitProducer α}
    (h : sp.split P = (lp, some r)) :
    splitOnP P sp.slice = splitOnP P lp.slice ++ splitOnP P r.slice := by
  rcases split_cases h with ⟨k, hc, hl, hr⟩ | ⟨_, _, hr⟩
  · obtain ⟨_, _, ⟨a, ha, hPa⟩, _⟩ := chooseCut_spec_some hc
    obtain rfl := (Option.some.injEq .. ▸ hr).symm
    subst hl
    conv_lhs => rw [← take_getElem_drop ha]
    rw [splitOnP_append_sep hPa]
  · exact Option.noConfusion hr

theorem runTree_eq {P : α → Bool} (t : SplitTree) {sp : SplitProducer α}
    (hInv : Inv P sp) : runTree P t sp = splitOnP P sp.slice := by
  induction t generalizing sp with
  | leaf =>
    simp only [runTree]
    rw [foldWith_never_full hInv (collectFolder α) (fun _ => rfl)]
    exact foldl_snoc _ _
  | node tl tr ihl ihr =>
    cases hsplit : sp.split P with
    | mk l r? =>
      have hpres := split_preserves_inv hInv hsplit
      cases r? with
      | some r =>
        simp only [runTree, hsplit]
        rw [ihl hpres.1.1, ihr (hpres.2 r rfl).1]
        exact (splitOnP_split_pieces hsplit).symm
      | none =>
        simp only [runTree, hsplit]
        rw [ihl hpres.1.1]
        rcases split_cases hsplit with ⟨k, _, _, hr⟩ | ⟨_, hl, _⟩
        · exact Option.noConfusion hr
        · rw [hl]

theorem chooseCut_of_forward {P : α → Bool} {s : List α} {t i : Nat}
    (hf : position P ((s.drop (t / 2)).take (t - t / 2)) = some i) :
    chooseCut P s t = some (t / 2 + i) := by
  unfold chooseCut
  simp only [hf]

theorem chooseCut_of_backward {P : α → Bool} {s : List α} {t : Nat}
    (hf : position P ((s.drop (t / 2)).take (t - t / 2)) = none) :
    chooseCut P s t = rposition P (s.take (t / 2)) := by
  unfold chooseCut
  simp only [hf]

theorem splitCost_eq_forward {P : α → Bool} {sp : SplitProducer α} {i : Nat}
    (hf : position P ((sp.slice.drop (sp.tail / 2)).take
        (sp.tail - sp.tail / 2)) = some i) :
    splitCost P sp = i + 1 := by
  unfold splitCost
  simp only [hf]
  exact positionCost_of_some hf

theorem splitCost_eq_backward {P : α → Bool} {sp : SplitProducer α} {k : Nat}
    (hf : position P ((sp.slice.drop (sp.tail / 2)).take
        (sp.tail - sp.tail / 2)) = none)
    (hb : rposition P (sp.slice.take (sp.tail / 2)) = some k)
    (hlen : sp.tail ≤ sp.slice.length) :
    splitCost P sp = (sp.tail - sp.tail / 2) + (sp.tail / 2 - k) := by
  have hmid : sp.tail / 2 ≤ sp.tail := Nat.div_le_self _ 2
  unfold splitCost
  simp only [hf]
  rw [positionCost_of_none hf, rpositionCost_of_some hb,
    List.length_take, List.length_drop, List.length_take]
  omega

theorem splitCost_eq_exhausted {P : α → Bool} {sp : SplitProducer α}
    (hf : position P ((sp.slice.drop (sp.tail / 2)).take
        (sp.tail - sp.tail / 2)) = none)
    (hb : rposition P (sp.slice.take (sp.tail / 2)) = none)
    (hlen : sp.tail ≤ sp.slice.length) :
    splitCost P sp = sp.tail := by
  have hmid : sp.tail / 2 ≤ sp.tail := Nat.div_le_self _ 2
  unfold splitCost
  simp only [hf]
  rw [positionCost_of_none hf, rpositionCost_of_none hb,
    List.length_take, List.length_drop, List.length_take]
  omega

theorem splitCost_of_split_some {P : α → Bool} {sp lp r : SplitProducer α}
    (hlen : sp.tail ≤ sp.slice.length) (h : sp.split P = (lp, some r)) :
    splitCost P sp + lp.tail + r.tail = sp.tail := by
  have hmid : sp.tail / 2 ≤ sp.tail := Nat.div_le_self _ 2
  cases hf : position P ((sp.slice.drop (sp.tail / 2)).take
      (sp.tail - sp.tail / 2)) with
  | some i =>
    have hibound : i < sp.tail - sp.tail / 2 := by
      obtain ⟨⟨a, ha, _⟩, _⟩ := position_eq_some hf
      rw [seg_getElem?] at ha
      by_contra hge
      rw [if_neg hge] at ha
      exact Option.noConfusion ha
    rw [split_of_chooseCut_some (chooseCut_of_forward hf)] at h
    obtain ⟨hl, hrr⟩ := Prod.mk.injEq .. ▸ h
    obtain rfl := hl
    obtain rfl := (Option.some.injEq .. ▸ hrr)
    rw [splitCost_eq_forward hf]
    have hnlt : ¬sp.tail / 2 + i < sp.tail / 2 := by omega
    simp only [hnlt, if_false]
    have hminl : min (sp.tail / 2) (sp.tail / 2 + i) = sp.tail / 2 :=
      by omega
    rw [hminl]
    omega
  | none =>
    cases hb : rposition P (sp.slice.take (sp.tail / 2)) with
    | some k =>
      have hkbound : k < sp.tail / 2 := by
        obtain ⟨⟨a, ha, _⟩, _⟩ := rposition_eq_some hb
        rw [List.getElem?_take] at ha
        by_contra hge
        rw [if_neg hge] at ha
        exact Option.noConfusion ha
      rw [split_of_chooseCut_some
        ((chooseCut_of_backward hf).trans hb)] at h
      obtain ⟨hl, hrr⟩ := Prod.mk.injEq .. ▸ h
      obtain rfl := hl
      obtain rfl := (Option.some.injEq .. ▸ hrr)
      rw [splitCost_eq_backward hf hb hlen]
      have hminl : min (sp.tail / 2) k = k := by omega
      simp only [hkbound, if_true, hminl]
      omega
    | none =>
      rw [split_of_chooseCut_none
        ((chooseCut_of_backward hf).trans hb)] at h
      obtain ⟨_, hrr⟩ := Prod.mk.injEq .. ▸ h
      exact Option.noConfusion hrr

theorem splitCost_of_split_none {P : α → Bool} {sp lp : SplitProducer α}
    (hlen : sp.tail ≤ sp.slice.length) (h : sp.split P = (lp, none)) :
    splitCost P sp + lp.tail = sp.tail := by
  cases hf : position P ((sp.slice.drop (sp.tail / 2)).take
      (sp.tail - sp.tail / 2)) with
  | some i =>
    rw [split_of_chooseCut_some (chooseCut_of_forward hf)] at h
    obtain ⟨_, hrr⟩ := Prod.mk.injEq .. ▸ h
    exact Option.noConfusion hrr
  | none =>
    cases hb : rposition P (sp.slice.take (sp.tail / 2)) with
    | some k =>
      rw [split_of_chooseCut_some
        ((chooseCut_of_backward hf).trans hb)] at h
      obtain ⟨_, hrr⟩ := Prod.mk.injEq .. ▸ h
      exact Option.noConfusion hrr
    | none =>
      rw [split_of_chooseCut_none
        ((chooseCut_of_backward hf).trans hb)] at h
      obtain ⟨hl, _⟩ := Prod.mk.injEq .. ▸ h
      obtain rfl := hl
      rw [splitCost_eq_exhausted hf hb hlen]
      simp

theorem treeCost_le {P : α → Bool} (t : SplitTree) {sp : SplitProducer α}
    (hInv : Inv P sp) : treeCost P t sp ≤ sp.tail := by
  induction t generalizing sp with
  | leaf => exact Nat.zero_le _
  | node tl tr ihl ihr =>
    cases hsplit : sp.split P with
    | mk l r? =>
      have hpres := split_preserves_inv hInv hsplit
      cases r? with
      | some r =>
        have hcost := splitCost_of_split_some (Inv_iff.mp hInv).1 hsplit
        simp only [treeCost, hsplit]
        have h1 := ihl hpres.1.1
        have h2 := ihr (hpres.2 r rfl).1
        omega
      | none =>
        have hcost := splitCost_of_split_none (Inv_iff.mp hInv).1 hsplit
        simp only [treeCost, hsplit]
        have h1 := ihl hpres.1.1
        omega

theorem map_range_getElem? {β : Type} (f : Nat → β) (n j : Nat) :
    ((List.range n).map f)[j]? = if j < n then some (f j) else none := by
  rw [List.getElem?_map]
  by_cases hj : j < n
  · rw [List.getElem?_range hj, if_pos hj]
    rfl
  · rw [List.getElem?_eq_none (by rw [List.length_range]; omega), if_neg hj]
    rfl

theorem windowsList_length (w : Nat) (l : List α) :
    (windowsList w l).length = l.length + 1 - w := by
  simp [windowsList]

theorem windowsList_getElem? (w : Nat) (l : List α) (j : Nat) :
    (windowsList w l)[j]? =
      if j < l.length + 1 - w then some ((l.drop j).take w) else none :=
  map_range_getElem? ..

theorem windowsList_mem_length {w : Nat} {l g : List α}
    (hg : g ∈ windowsList w l) : g.length = w := by
  obtain ⟨j, hj⟩ := List.mem_iff_getElem?.mp hg
  rw [windowsList_getElem?] at hj
  by_cases hjn : j < l.length + 1 - w
  · rw [if_pos hjn] at hj
    obtain rfl := Option.some.injEq .. ▸ hj
    rw [List.length_take, List.length_drop]
    omega
  · rw [if_neg hjn] at hj
    exact Option.noConfusion hj

theorem windowsList_take {w i : Nat} (hw : 1 ≤ w) (l : List α)
    (hi : i ≤ l.length + 1 - w) :
    windowsList w (l.take (min l.length (i + (w - 1)))) =
      (windowsList w l).take i := by
  refine List.ext_getElem? fun j => ?_
  rw [List.getElem?_take, windowsList_getElem?, windowsList_getElem?,
    List.length_take]
  by_cases hji : j < i
  · rw [if_pos hji, if_pos (by omega), if_pos (by omega)]
    congr 1
    rw [List.drop_take, List.take_take]
    congr 1
    omega
  · rw [if_neg hji, if_neg (by omega)]

theorem windowsList_drop {w : Nat} (hw : 1 ≤ w) (l : List α) (i : Nat) :
    windowsList w (l.drop i) = (windowsList w l).drop i := by
  refine List.ext_getElem? fun j => ?_
  rw [List.getElem?_drop, windowsList_getElem?, windowsList_getElem?,
    List.length_drop]
  by_cases hj : j < l.length - i + 1 - w
  · rw [if_pos hj, if_pos (by omega)]
    rw [List.drop_drop]
  · rw [if_neg hj, if_neg (by omega)]

theorem lt_ceil_iff {c n j : Nat} (hc : 1 ≤ c) :
    j < (n + (c - 1)) / c ↔ j * c < n := by
  rw [Nat.lt_iff_add_one_le, Nat.le_div_iff_mul_le (by omega), Nat.succ_mul]
  omega

theorem chunksList_length (c : Nat) (l : List α) :
    (chunksList c l).length = (l.length + (c - 1)) / c := by
  simp [chunksList]

theorem chunksList_getElem? (c : Nat) (l : List α) (j : Nat) :
    (chunksList c l)[j]? =
      if j < (l.length + (c - 1)) / c then some ((l.drop (j * c)).take c)
      else none :=
  map_range_getElem? ..

theorem chunksList_cons_of_ne {c : Nat} (hc : 1 ≤ c) {l : List α}
    (hl : l.length ≠ 0) :
    chunksList c l = l.take c :: chunksList c (l.drop c) := by
  have hcount : 1 ≤ (l.length + (c - 1)) / c := by
    rw [Nat.le_div_iff_mul_le (by omega), Nat.one_mul]
    omega
  refine List.ext_getElem? fun j => ?_
  rw [chunksList_getElem?]
  cases j with
  | zero =>
    rw [if_pos (by omega)]
    simp
  | succ j =>
    rw [List.getElem?_cons_succ, chunksList_getElem?, List.length_drop]
    by_cases hj : j < (l.length - c + (c - 1)) / c
    · rw [if_pos hj, if_pos ?_]
      · rw [List.drop_drop]
        congr 3
        rw [Nat.succ_mul]
        omega
      · rw [lt_ceil_iff hc] at hj ⊢
        rw [Nat.succ_mul]
        omega
    · rw [if_neg hj, if_neg ?_]
      rw [lt_ceil_iff hc] at hj ⊢
      rw [Nat.succ_mul]
      omega

theorem chunksList_flatten_aux {c : Nat} (hc : 1 ≤ c) :
    ∀ (m : Nat) (l : List α), l.length ≤ m * c →
      (chunksList c l).flatten = l := by
  intro m
  induction m with
  | zero =>
    intro l hm
    simp only [Nat.zero_mul, Nat.le_zero] at hm
    rw [List.length_eq_zero] at hm
    subst hm
    simp [chunksList]
  | succ m ih =>
    intro l hm
    by_cases hl : l.length = 0
    · rw [List.length_eq_zero] at hl
      subst hl
      simp [chunksList]
    · rw [chunksList_cons_of_ne hc hl, List.flatten_cons,
        ih (l.drop c) (by rw [List.length_drop, Nat.succ_mul] at *; omega)]
      exact List.take_append_drop c l

theorem chunksList_flatten {c : Nat} (hc : 1 ≤ c) (l : List α) :
    (chunksList c l).flatten = l :=
  chunksList_flatten_aux hc l.length l
    (Nat.le_mul_of_pos_right _ (by omega))

theorem chunksList_take {c i : Nat} (hc : 1 ≤ c) (l : List α)
    (hi : i * c ≤ l.length) :
    chunksList c (l.take (i * c)) = (chunksList c l).take i := by
  refine List.ext_getElem? fun j => ?_
  rw [List.getElem?_take, chunksList_getElem?, chunksList_getElem?,
    List.length_take]
  simp only [min_eq_left hi, lt_ceil_iff hc]
  by_cases hji : j < i
  · have hjc : j * c + c ≤ i * c := by
      have := Nat.mul_le_mul_right c (Nat.succ_le_of_lt hji)
      rwa [Nat.succ_mul] at this
    rw [if_pos (by omega), if_pos hji, if_pos (by omega)]
    congr 1
    rw [List.drop_take, List.take_take]
    congr 1
    omega
  · have hjc : i * c ≤ j * c := Nat.mul_le_mul_right c (by omega)
    rw [if_neg (by omega), if_neg hji]

theorem chunksList_drop {c : Nat} (hc : 1 ≤ c) (l : List α) (i : Nat) :
    chunksList c (l.drop (i * c)) = (chunksList c l).drop i := by
  refine List.ext_getElem? fun j => ?_
  rw [List.getElem?_drop, chunksList_getElem?, chunksList_getElem?,
    List.length_drop]
  simp only [lt_ceil_iff hc, Nat.add_mul]
  by_cases hj : j * c < l.length - i * c
  · rw [if_pos hj, if_pos (by omega)]
    rw [List.drop_drop]
  · rw [if_neg hj, if_neg (by omega)]

theorem chunksList_mem_length_of_mul {c i : Nat} (hc : 1 ≤ c) {l : List α}
    (hlen : l.length = i * c) {g : List α} (hg : g ∈ chunksList c l) :
    g.length = c := by
  obtain ⟨j, hj⟩ := List.mem_iff_getElem?.mp hg
  rw [chunksList_getElem?] at hj
  by_cases hcond : j < (l.length + (c - 1)) / c
  · rw [if_pos hcond] at hj
    obtain rfl := Option.some.injEq .. ▸ hj
    rw [lt_ceil_iff hc, hlen] at hcond
    have hji : j < i := Nat.lt_of_mul_lt_mul_right hcond
    have hjc : j * c + c ≤ i * c := by
      have := Nat.mul_le_mul_right c (Nat.succ_le_of_lt hji)
      rwa [Nat.succ_mul] at this
    rw [List.length_take, List.length_drop, hlen]
    omega
  · rw [if_neg hcond] at hj
    exact Option.noConfusion hj

theorem chunksList_dropLast_length {c : Nat} (hc : 1 ≤ c) {l g : List α}
    (hg : g ∈ (chunksList c l).dropLast) : g.length = c := by
  rw [List.dropLast_eq_take] at hg
  obtain ⟨j, hj⟩ := List.mem_iff_getElem?.mp hg
  rw [List.getElem?_take] at hj
  by_cases h1 : j < (chunksList c l).length - 1
  · rw [if_pos h1, chunksList_getElem?] at hj
    rw [chunksList_length] at h1
    by_cases h2 : j < (l.length + (c - 1)) / c
    · rw [if_pos h2] at hj
      obtain rfl := Option.some.injEq .. ▸ hj
      have h3 : j + 1 < (l.length + (c - 1)) / c := by omega
      rw [lt_ceil_iff hc, Nat.succ_mul] at h3
      rw [List.length_take, List.length_drop]
      omega
    · rw [if_neg h2] at hj
      exact Option.noConfusion hj
  · rw [if_neg h1] at hj
    exact Option.noConfusion hj

theorem ceil_mul_ge {c n : Nat} (hc : 1 ≤ c) :
    n ≤ ((n + (c - 1)) / c) * c := by
  by_contra hlt
  push_neg at hlt
  exact absurd ((lt_ceil_iff hc).mpr hlt) (lt_irrefl _)

theorem chunksList_getLast_length {c : Nat} (hc : 1 ≤ c) {l g : List α}
    (hg : (chunksList c l).getLast? = some g) :
    g.length = l.length - c * ((l.length + (c - 1)) / c - 1) := by
  rw [List.getLast?_eq_getElem?, chunksList_getElem?, chunksList_length]
    at hg
  by_cases h1 : (l.length + (c - 1)) / c - 1 < (l.length + (c - 1)) / c
  · rw [if_pos h1] at hg
    obtain rfl := Option.some.injEq .. ▸ hg
    have hup := ceil_mul_ge (n := l.length) hc
    have hsub : ((l.length + (c - 1)) / c - 1) * c
        = ((l.length + (c - 1)) / c) * c - c := Nat.sub_one_mul ..
    rw [List.length_take, List.length_drop, Nat.mul_comm c]
    omega
  · rw [if_neg h1] at hg
    exact Option.noConfusion hg

theorem lastSep_decomposition {P : α → Bool} {sp : SplitProducer α}
    (hlen : sp.tail ≤ sp.slice.length)
    (hsuf : NoSepIn P sp.slice sp.tail sp.slice.length) {i : Nat}
    (hr : rposition P (sp.slice.take sp.tail) = some i) :
    splitOnP P sp.slice =
      splitOnP P (sp.slice.take i) ++ [sp.slice.drop (i + 1)] := by
  obtain ⟨⟨a, ha, hPa⟩, hafter⟩ := rposition_eq_some hr
  rw [List.getElem?_take] at ha
  have hi : i < sp.tail := by
    by_contra hge
    rw [if_neg hge] at ha
    exact Option.noConfusion ha
  rw [if_pos hi] at ha
  refine splitOnP_last_sep ha hPa ?_
  intro b hb
  obtain ⟨j, hj⟩ := List.mem_iff_getElem?.mp hb
  rw [List.getElem?_drop] at hj
  have hjlen : i + 1 + j < sp.slice.length := by
    by_contra hge
    rw [List.getElem?_eq_none (by omega)] at hj
    exact Option.noConfusion hj
  by_cases hjt : i + 1 + j < sp.tail
  · refine hafter (i + 1 + j) (by omega) b ?_
    rw [List.getElem?_take, if_pos hjt]
    exact hj
  · exact hsuf (i + 1 + j) (by omega) hjlen b hj

/-- C1: when `0 ≤ t ≤ len(s)` and some element of `s[0..t)` satisfies the
separator predicate, `split` cuts at the first separator in `[mid, t)` or,
failing that, at the last separator in `[0, mid)` with `mid = t / 2`; the
left child is the view `[0, k)` with `tail = min(mid, k)`, the separator
at `k` belongs to neither child, and a backward find resets the right
child's tail to `0`. -/
theorem c1_split_cut_choice {P : α → Bool} {s : List α} {t : Nat}
    (ht : t ≤ s.length) (hex : (s.take t).any P = true) :
    SplitCutSpec P s t := by
  cases hc : chooseCut P s t with
  | none =>
    exfalso
    obtain ⟨a, hmem, hPa⟩ := List.any_eq_true.mp hex
    obtain ⟨j, hj⟩ := List.mem_iff_getElem?.mp hmem
    rw [List.getElem?_take] at hj
    have hjt : j < t := by
      by_contra hge
      rw [if_neg hge] at hj
      exact Option.noConfusion hj
    rw [if_pos hjt] at hj
    exact absurd hPa
      (by simpa using chooseCut_eq_none_iff.mp hc j (by omega) hjt a hj)
  | some k =>
    obtain ⟨hkt, hklen, ⟨a, ha, hPa⟩, hdisj⟩ := chooseCut_spec_some hc
    exact ⟨k, a, ha, hPa, hdisj, split_of_chooseCut_some hc,
      take_getElem_drop ha⟩

/-- C1 witness: a concrete backward-scan cut on `[0,1,2,3]` with
`tail = 4`. -/
theorem c1_witness :
    SplitCutSpec (fun a => a == 1) ([0, 1, 2, 3] : List Nat) 4 :=
  c1_split_cut_choice (by decide) (by decide)

/-- C2 counterexample: the claim says the right child's slice holds
exactly the original indices `k+1` up to but excluding `tail_original`,
and its tail is `tail_original - k - 1`.  On `⟨[0,1,2,3], tail = 2⟩` with
separator `= 1` the cut is `k = 1` and the right slice is `[2,3]` (it runs
to the end of the slice), not the claimed empty view `(1, 2)`; and on the
fresh `⟨[1,0], tail = 2⟩` the cut `k = 0` is found backward and the right
tail is `0`, not `2 - 0 - 1 = 1`. -/
theorem c2_counterexample :
    ((SplitProducer.split (fun a => a == 1)
        ⟨([0, 1, 2, 3] : List Nat), 2⟩).2 = some ⟨[2, 3], 0⟩ ∧
      some (⟨[2, 3], 0⟩ : SplitProducer Nat) ≠ some ⟨[], 0⟩) ∧
    ((SplitProducer.split (fun a => a == 1)
        ⟨([1, 0] : List Nat), 2⟩).2 = some ⟨[0], 0⟩ ∧
      some (⟨[0], 0⟩ : SplitProducer Nat) ≠ some ⟨[0], 2 - 0 - 1⟩) := by
  exact ⟨⟨by decide, by decide⟩, by decide, by decide⟩

/-- C2 amended: the right child returned by a successful split is the view
`[k+1, len)` — its slice holds the elements at original indices `k+1` up
to the end of the parent slice — with `tail = tail_original - k - 1`,
except that a backward-scan cut (`k < mid`) resets it to `0`. -/
theorem c2_right_child {P : α → Bool} (sp : SplitProducer α) :
    RightChildSpec P sp := by
  intro lp r h
  rcases split_cases h with ⟨k, hc, _, hr⟩ | ⟨_, _, hr⟩
  · obtain rfl := (Option.some.injEq .. ▸ hr).symm
    refine ⟨k, hc, rfl, ?_, rfl⟩
    intro j a hj
    simpa using List.getElem?_drop .. ▸ hj
  · exact Option.noConfusion hr

/-- C2 witness: the amended right-child contract at a concrete split. -/
theorem c2_witness :
    RightChildSpec (fun a => a == 1) ⟨([0, 1, 2, 3] : List Nat), 2⟩ :=
  c2_right_child _

/-- C4: every producer reachable from construction satisfies
`0 ≤ tail ≤ len` with the suffix `[tail, len)` separator-free; a fresh
producer has `tail = len`; and split never increases the marker: both
pieces have tails at most the parent's and re-establish the
separator-free-suffix invariant. -/
theorem c4_tail_invariant {P : α → Bool} {sp : SplitProducer α}
    (h : Reachable P sp) :
    (sp.tail ≤ sp.slice.length ∧
      (sp.slice.drop sp.tail).all (fun a => !P a) = true) ∧
    (∀ s : Split α, (Split.toProducer s).tail = s.slice.length) ∧
    (∀ lp r?, sp.split P = (lp, r?) →
      (Inv P lp ∧ lp.tail ≤ sp.tail) ∧
      ∀ r, r? = some r → Inv P r ∧ r.tail ≤ sp.tail) := by
  have hInv := reachable_inv h
  exact ⟨hInv, fun _ => rfl, fun lp r? hs => split_preserves_inv hInv hs⟩

/-- C4 witness: the invariant at a freshly constructed producer. -/
theorem c4_witness :
    ((2 : Nat) ≤ ([0, 1] : List Nat).length ∧
      (([0, 1] : List Nat).drop 2).all
        (fun a => !(a == 1)) = true) :=
  (c4_tail_invariant
    (Reachable.fresh (P := fun a => a == 1) ⟨[0, 1]⟩)).1

/-- C5: on a producer whose suffix `[tail, len)` is separator-free, with a
folder that never reports itself full, `fold_with` consumes exactly the
groups of the plain predicate split of the whole slice; when `tail < len`
the single `rposition` search in `[0, tail)` finds the last separator `i`,
and the direct pass on `[0, i)` plus the trailing subview `[i+1, len)` as
one final group are exactly those groups. -/
theorem c5_fold_fusion {β : Type} {P : α → Bool} {sp : SplitProducer α}
    (hlen : sp.tail ≤ sp.slice.length)
    (hsuf : (sp.slice.drop sp.tail).all (fun a => !P a) = true)
    (f : Folder (List α) β) (hf : ∀ b, f.full b = false) :
    sp.foldWith P f =
      ⟨(splitOnP P sp.slice).foldl f.consume f.st, f.consume, f.full⟩ ∧
    (∀ i, rposition P (sp.slice.take sp.tail) = some i →
      splitOnP P sp.slice =
        splitOnP P (sp.slice.take i) ++ [sp.slice.drop (i + 1)]) := by
  have hInv : Inv P sp := ⟨hlen, hsuf⟩
  refine ⟨foldWith_never_full hInv f hf, fun i hr => ?_⟩
  exact lastSep_decomposition hlen (Inv_iff.mp hInv).2 hr

/-- C5 witness: fold fusion on `⟨[0,1,0,1,0,0], tail = 4⟩` with the
group-collecting folder. -/
theorem c5_witness :
    SplitProducer.foldWith (fun a => a == 1)
        ⟨([0, 1, 0, 1, 0, 0] : List Nat), 4⟩ (collectFolder Nat) =
      ⟨(splitOnP (fun a => a == 1)
            ([0, 1, 0, 1, 0, 0] : List Nat)).foldl
          (collectFolder Nat).consume (collectFolder Nat).st,
        (collectFolder Nat).consume, (collectFolder Nat).full⟩ :=
  (c5_fold_fusion (by decide) (by decide) (collectFolder Nat)
    (fun _ => rfl)).1

/-- C6: when the prefix `[0, tail)` holds no separator, `split` returns
the producer itself — slice unchanged — with `tail = 0` and no second
piece. -/
theorem c6_exhausted_split {P : α → Bool} {sp : SplitProducer α}
    (h : (sp.slice.take sp.tail).all (fun a => !P a) = true) :
    sp.split P = (⟨sp.slice, 0⟩, none) := by
  refine split_of_chooseCut_none (chooseCut_eq_none_iff.mpr ?_)
  intro j hj1 hj2 a ha
  have hmem : a ∈ sp.slice.take sp.tail := by
    refine List.mem_iff_getElem?.mpr ⟨j, ?_⟩
    rw [List.getElem?_take, if_pos hj2]
    exact ha
  simpa using List.all_eq_true.mp h a hmem

/-- C6 witness: the exhausted split on `⟨[0,0,0], tail = 3⟩`. -/
theorem c6_witness :
    SplitProducer.split (fun a => a == 1)
        ⟨([0, 0, 0] : List Nat), 3⟩ =
      (⟨[0, 0, 0], 0⟩, none) :=
  c6_exhausted_split (by decide)

/-- C3: under any sequence of split operations, folding the leaves and
concatenating in left-to-right tree order yields exactly the
predicate-based split of the original slice; re-inserting the (single)
separator element between consecutive groups reproduces the slice;
leading/trailing separators yield empty boundary groups; and the example
`[a,-,b,c,-,-,d]` (as ASCII codes) yields `[a],[b,c],[],[d]`. -/
theorem c3_separator_round_trip :
    (∀ (γ : Type) (P : γ → Bool) (s : List γ) (t : SplitTree),
        runTree P t (Split.toProducer ⟨s⟩) = splitOnP P s) ∧
    (∀ (γ : Type) (P : γ → Bool) (s : List γ) (sep : γ),
        (∀ a ∈ s, P a = true → a = sep) →
        joinSep sep (splitOnP P s) = s) ∧
    (∀ (γ : Type) (P : γ → Bool) (a : γ) (s : List γ),
        P a = true → ∃ gs, splitOnP P (a :: s) = [] :: gs) ∧
    (∀ (γ : Type) (P : γ → Bool) (a : γ) (s : List γ),
        P a = true →
          ∃ gs, splitOnP P (s ++ [a]) = gs ++ ([[]] : List (List γ))) ∧
    (∀ t : SplitTree,
        runTree (fun a => a == 45) t
            (Split.toProducer ⟨([97, 45, 98, 99, 45, 45, 100] : List Nat)⟩)
          = [[97], [98, 99], [], [100]]) := by
  have hmain : ∀ (γ : Type) (P : γ → Bool) (s : List γ) (t : SplitTree),
      runTree P t (Split.toProducer ⟨s⟩) = splitOnP P s := by
    intro γ P s t
    refine runTree_eq t (Inv_iff.mpr ⟨le_refl _, ?_⟩)
    exact noSepIn_beyond (le_refl _)
  refine ⟨hmain, ?_, ?_, ?_, fun t => ?_⟩
  · intro γ P s sep h
    exact joinSep_splitOnP h
  · intro γ P a s h
    exact ⟨splitOnP P s, by simp [splitOnP, h]⟩
  · intro γ P a s h
    refine ⟨splitOnP P s, ?_⟩
    rw [splitOnP_append_sep h s []]
    rfl
  · rw [hmain]
    decide

/-- C3 witness: the round-trip at the concrete example sequence. -/
theorem c3_witness :
    joinSep 45 (splitOnP (fun a => a == 45)
        ([97, 45, 98, 99, 45, 45, 100] : List Nat))
      = [97, 45, 98, 99, 45, 45, 100] :=
  c3_separator_round_trip.2.1 Nat (fun a => a == 45) _ 45 (by decide)

/-- C7: for `w ≥ 1` and window index `i ≤ max(n - w + 1, 0)`,
`WindowsProducer::split_at(i)` yields the left view
`[0, min(n, i + w - 1))` and right view `[i, n)`, overlapping in at most
`w - 1` elements; the left yields the first `i` windows, the right the
rest, each of exactly `w` elements, and concatenating the children's
window sequences restores the original window sequence. -/
theorem c7_windows_split {w : Nat} (hw : 1 ≤ w) (s : List α) (i : Nat)
    (hi : i ≤ Windows.len ⟨w, s⟩) :
    WindowsSplitSpec w s i := by
  have hi' : i ≤ s.length - (w - 1) := hi
  have hile : i ≤ s.length := by omega
  have hi1 : i ≤ s.length + 1 - w := by omega
  refine ⟨⟨w, s.take (min s.length (i + (w - 1)))⟩, ⟨w, s.drop i⟩, ?_,
    rfl, rfl, rfl, rfl, ?_, ?_, ?_, ?_, ?_, ?_, ?_⟩
  · unfold WindowsProducer.split_at
    rw [if_pos hile]
  · rw [List.length_take]
    omega
  · exact windowsList_take hw s hi1
  · rw [windowsList_take hw s hi1, List.length_take, windowsList_length]
    omega
  · exact windowsList_drop hw s i
  · rw [windowsList_take hw s hi1, windowsList_drop hw s i]
    exact List.take_append_drop i (windowsList w s)
  · rw [windowsList_length]
    show _ = s.length - (w - 1)
    omega
  · intro g hg
    exact windowsList_mem_length hg

/-- C7 witness: the window split of `[1,2,3,4,5]` with `w = 3` at window
index `2`. -/
theorem c7_witness : WindowsSplitSpec 3 ([1, 2, 3, 4, 5] : List Nat) 2 :=
  c7_windows_split (by decide) _ 2 (by decide)

/-- C8 counterexample: the claim covers every chunk index
`0 ≤ i ≤ length()`, but on `[1,2,3,4,5,6,7]` with `c = 3` the index
`i = length() = 3` maps to element index `9 > 7`, where the underlying
slice split panics (modelled as `none`) — no producers are yielded. -/
theorem c8_counterexample :
    Chunks.len ⟨3, ([1, 2, 3, 4, 5, 6, 7] : List Nat)⟩ = 3 ∧
    ChunksProducer.split_at
        (⟨3, [1, 2, 3, 4, 5, 6, 7]⟩ : ChunksProducer Nat) 3 = none ∧
    ChunksMutProducer.split_at
        (⟨3, [1, 2, 3, 4, 5, 6, 7]⟩ : ChunksMutProducer Nat) 3 = none := by
  exact ⟨by decide, by decide, by decide⟩

/-- C8 amended: for `c ≥ 1` and chunk index `i ≤ length()` with
`i * c ≤ n` (always true for `i < length()`; at `i = length()` it holds
exactly when `c` divides `n`), `split_at(i)` splits the slice at element
index `i * c`: the left producer carries the first `i` chunks, each of
size `c`, the right the remaining `length() - i` chunks, all of size `c`
except possibly the last, the element ranges are disjoint, and their
concatenation is the original slice; when `i * c > n` (possible only at
`i = length()` with `c ∤ n`) the element-level split panics. -/
theorem c8_chunks_split {c : Nat} (hc : 1 ≤ c) (s : List α) (i : Nat)
    (hi : i ≤ Chunks.len ⟨c, s⟩) (hic : i * c ≤ s.length) :
    ChunksSplitSpec c s i := by
  have hi' : i ≤ (s.length + (c - 1)) / c := hi
  have hlentake : (s.take (i * c)).length = i * c := by
    rw [List.length_take]
    omega
  refine ⟨⟨c, s.take (i * c)⟩, ⟨c, s.drop (i * c)⟩, ?_, rfl, rfl, rfl,
    rfl, List.take_append_drop .., ?_, ?_, ?_, ?_, ?_, ?_,
    ⟨⟨c, s.take (i * c)⟩, ⟨c, s.drop (i * c)⟩, ?_, rfl, rfl⟩⟩
  · unfold ChunksProducer.split_at
    rw [if_pos hic]
  · exact chunksList_take hc s hic
  · exact chunksList_drop hc s i
  · rw [chunksList_take hc s hic, List.length_take, chunksList_length]
    omega
  · rw [chunksList_drop hc s i, List.length_drop, chunksList_length]
    rfl
  · intro g hg
    exact chunksList_mem_length_of_mul hc hlentake hg
  · intro g hg
    exact chunksList_dropLast_length hc hg
  · unfold ChunksMutProducer.split_at
    rw [if_pos hic]

/-- C8 witness: the chunk split of `[1,2,3,4,5,6,7]` with `c = 3` at chunk
index `1`. -/
theorem c8_witness :
    ChunksSplitSpec 3 ([1, 2, 3, 4, 5, 6, 7] : List Nat) 1 :=
  c8_chunks_split (by decide) _ 1 (by decide) (by decide)

/-- C9: for `c ≥ 1`, `length()` is `ceil(n / c)` — characterised by
`n ≤ length() * c` and, for `n > 0`, `(length() - 1) * c < n`; bulk
iteration yields exactly `length()` chunks, every chunk but the last has
exactly `c` elements and the last has `n - c * (length() - 1)`; and the
example `[1..7]` with `c = 3` gives chunks `[1,2,3],[4,5,6],[7]` with
`length() = 3`. -/
theorem c9_chunk_length_law {c : Nat} (hc : 1 ≤ c) (s : List α) :
    Chunks.len ⟨c, s⟩ = (s.length + (c - 1)) / c ∧
    s.length ≤ Chunks.len ⟨c, s⟩ * c ∧
    (0 < s.length → (Chunks.len ⟨c, s⟩ - 1) * c < s.length) ∧
    (chunksList c s).length = Chunks.len ⟨c, s⟩ ∧
    (∀ g ∈ (chunksList c s).dropLast, g.length = c) ∧
    (∀ g, (chunksList c s).getLast? = some g →
      g.length = s.length - c * (Chunks.len ⟨c, s⟩ - 1)) ∧
    chunksList 3 ([1, 2, 3, 4, 5, 6, 7] : List Nat)
        = [[1, 2, 3], [4, 5, 6], [7]] ∧
    Chunks.len ⟨3, ([1, 2, 3, 4, 5, 6, 7] : List Nat)⟩ = 3 := by
  refine ⟨rfl, ceil_mul_ge hc, ?_, (chunksList_length c s).symm ▸ rfl, ?_,
    ?_, by decide, by decide⟩
  · intro hpos
    have h1 : 1 ≤ (s.length + (c - 1)) / c := by
      rw [Nat.le_div_iff_mul_le (by omega), Nat.one_mul]
      omega
    have h2 : Chunks.len ⟨c, s⟩ = (s.length + (c - 1)) / c := rfl
    rw [h2, ← lt_ceil_iff hc]
    omega
  · intro g hg
    exact chunksList_dropLast_length hc hg
  · intro g hg
    exact chunksList_getLast_length hc hg

/-- C9 witness: the chunk-length law for `[1..7]` with `c = 3`. -/
theorem c9_witness :
    (chunksList 3 ([1, 2, 3, 4, 5, 6, 7] : List Nat)).length
      = Chunks.len ⟨3, ([1, 2, 3, 4, 5, 6, 7] : List Nat)⟩ :=
  (c9_chunk_length_law (by decide)
    ([1, 2, 3, 4, 5, 6, 7] : List Nat)).2.2.2.1

/-- C10: across any recursive split schedule over a fresh
separator-delimited producer on `n` elements, the total number of
predicate invocations performed by the split operations is at most `n` —
linear, each element inspected at most once overall, not `O(n log n)`. -/
theorem c10_amortized_search_cost :
    ∀ (γ : Type) (P : γ → Bool) (s : List γ) (t : SplitTree),
      treeCost P t (Split.toProducer ⟨s⟩) ≤ s.length := by
  intro γ P s t
  have hInv : Inv P (Split.toProducer ⟨s⟩) :=
    Inv_iff.mpr ⟨le_refl _, noSepIn_beyond (le_refl _)⟩
  exact treeCost_le t hInv

end RayonSlice
